import Mathlib

/-!
Verification of the Variant Generation & Scoring Engine of the TeacherTest
repository (src/core/processor.py) against its natural-language specification.

Strings of the Python source are modelled as lists of characters (`Str`).
Python floats are modelled as rationals; machine rounding plays no role in any
statement proved here (weights are small decimal literals).  Python's
process-wide random source is modelled by explicit oracle parameters (a shuffle
permutation, a per-group selection function): every theorem quantifies over the
oracle, so it holds for every possible random draw.
-/

namespace TeacherTest

/-- Strings of the source program, modelled as lists of characters. -/
abbrev Str := List Char

/-- Embeds a Lean string literal into the model. -/
def strL (s : String) : Str := s.data

/-- Whitespace characters removed by Python str.strip. -/
def isSpaceCh (c : Char) : Bool :=
  c = ' ' || c = '\t' || c = '\n' || c = '\r' || c = '\x0b' || c = '\x0c'

/-- Python str.strip: drop leading and trailing whitespace. -/
def pyStrip (s : Str) : Str :=
  ((s.dropWhile isSpaceCh).reverse.dropWhile isSpaceCh).reverse

/-- Python str.upper on one character, modelled for the ASCII and Cyrillic
ranges the program manipulates (other characters are left unchanged). -/
def pyUpperChar (c : Char) : Char :=
  if 'a' ≤ c ∧ c ≤ 'z' then Char.ofNat (c.toNat - 32)
  else if 'а' ≤ c ∧ c ≤ 'я' then Char.ofNat (c.toNat - 32)
  else if c = 'ё' then 'Ё'
  else if c = 'і' then 'І'
  else if c = 'ї' then 'Ї'
  else if c = 'є' then 'Є'
  else if c = 'ґ' then 'Ґ'
  else c

/-- Python str.lower on one character, modelled for the ASCII and Cyrillic
ranges the program manipulates. -/
def pyLowerChar (c : Char) : Char :=
  if 'A' ≤ c ∧ c ≤ 'Z' then Char.ofNat (c.toNat + 32)
  else if 'А' ≤ c ∧ c ≤ 'Я' then Char.ofNat (c.toNat + 32)
  else if c = 'Ё' then 'ё'
  else if c = 'І' then 'і'
  else if c = 'Ї' then 'ї'
  else if c = 'Є' then 'є'
  else if c = 'Ґ' then 'ґ'
  else c

/-- Python str.upper over a whole string. -/
def pyUpper (s : Str) : Str := s.map pyUpperChar

/-- Python str.lower over a whole string. -/
def pyLower (s : Str) : Str := s.map pyLowerChar

/-- Splits a string on a separator character; mirrors Python str.split(sep),
which yields one (possibly empty) piece per separator gap. -/
def splitOnChar (sep : Char) : Str → List Str
  | [] => [[]]
  | c :: rest =>
    let r := splitOnChar sep rest
    if c = sep then [] :: r
    else
      match r with
      | [] => [[c]]
      | h :: t => (c :: h) :: t

/-- Joins pieces with a comma; mirrors Python ",".join(pieces). -/
def joinComma : List Str → Str
  | [] => []
  | [x] => x
  | x :: y :: rest => x ++ ',' :: joinComma (y :: rest)

/-- First index of an element in a list (Python list.index); the call sites in
the source always pass a member, so the out-of-range result for a missing
element is never reached. -/
def idxOfL {α : Type} [DecidableEq α] : List α → α → Nat
  | [], _ => 0
  | x :: xs, t => if x = t then 0 else idxOfL xs t + 1

/-- ASCII decimal digit test by code point (the numerals the bank format uses). -/
def isDigitCh (c : Char) : Bool := 48 ≤ c.toNat && c.toNat ≤ 57

/-- Character for a decimal digit value below 10. -/
def digitChar (n : Nat) : Char := Char.ofNat (48 + n)

/-- Fuel-driven most-significant-first decimal digits of a natural number;
the fuel argument only forces structural recursion and is irrelevant once it
exceeds the value (see natDigitsAux_congr below). -/
def natDigitsAux : Nat → Nat → Str
  | 0, _ => []
  | fuel + 1, n =>
    if n < 10 then [digitChar n]
    else natDigitsAux fuel (n / 10) ++ [digitChar (n % 10)]

/-- Python str(n) for a natural number. -/
def natDigitsStr (n : Nat) : Str := natDigitsAux (n + 1) n

/-- Numeric value of a digit string (the accumulator fold Python int performs). -/
def digitsVal (s : Str) : Nat := s.foldl (fun n c => 10 * n + (c.toNat - 48)) 0

/-- The fixed 27-letter option alphabet of processor.py (Ukrainian letters
without Ґ, Є, І, Ї, Й, Ь), used both at generation and at grading time. -/
def ukrainianLetters : List Char :=
  ['А', 'Б', 'В', 'Г', 'Д', 'Е', 'Ж', 'З', 'И', 'К', 'Л', 'М', 'Н', 'О',
   'П', 'Р', 'С', 'Т', 'У', 'Ф', 'Х', 'Ц', 'Ч', 'Ш', 'Щ', 'Ю', 'Я']

/-! ### Scoring engine (check_student_answers, processor.py lines 897-1073) -/

/-- Errors raised by check_student_answers; each carries the data interpolated
into the Python error message (the question number is the 1-based index). -/
inductive GradeError where
  | badWeight (piece : Str)
  | countMismatch (studentCount : Nat) (keyCount : Nat)
  | invalidLetters (questionNumber : Nat) (letters : List Char)
  | invalidLetter (questionNumber : Nat) (rawAnswer : Str)
deriving DecidableEq, Repr

/-- Per-question maximum point value, recomputed on every grading call:
question_points = (weight / total_weight) * 12 (processor.py line 955). -/
def questionPoints (weight totalWeight : ℚ) : ℚ := weight / totalWeight * 12

/-- Grades one question (processor.py lines 972-1031).  The branch on
question_options decides test vs open grading; inside the test branch the
length of the normalized student answer decides set vs single-letter
comparison.  Returns (is_correct, earned_points). -/
def gradeOne (i : Nat) (questionPointsVal : ℚ) (questionOptions : List Str)
    (studentAns correctAns : Str) : Except GradeError (Bool × ℚ) :=
  if 0 < questionOptions.length then
    if studentAns = [] ∨ pyStrip studentAns = [] then .ok (false, 0)
    else
      let s := pyUpper (pyStrip studentAns)
      let c := pyUpper (pyStrip correctAns)
      if 1 < s.length then
        let invalid := s.filter (fun ch => ¬ ch ∈ ukrainianLetters)
        if invalid ≠ [] then .error (.invalidLetters (i + 1) invalid)
        else if s.toFinset = c.toFinset then .ok (true, questionPointsVal)
        else .ok (false, 0)
      else
        if s ∈ ukrainianLetters.map (fun ch => [ch]) then
          if s = c then .ok (true, questionPointsVal) else .ok (false, 0)
        else .error (.invalidLetter (i + 1) studentAns)
  else
    if studentAns = [] ∨ pyStrip studentAns = [] then .ok (false, 0)
    else if pyLower (pyStrip studentAns) = pyLower (pyStrip correctAns) then
      .ok (true, questionPointsVal)
    else .ok (false, 0)

/-- One row of the detailed grading report (the fields of the Python dict that
carry computation results; the purely presentational text fields are omitted). -/
structure GradeItem where
  questionNumber : Nat
  isCorrect : Bool
  weight : ℚ
  points : ℚ
  maxPoints : ℚ
  isTestQuestion : Bool
deriving DecidableEq, Repr

/-- Result record of check_student_answers. -/
structure CheckResult where
  variantNumber : Nat
  totalQuestions : Nat
  correctAnswers : Nat
  scorePercentage : ℚ
  weightedScore : ℚ
  maxScore : ℚ
  detailed : List GradeItem
deriving DecidableEq, Repr

/-- Truncating three-way zip, mirroring Python zip(a, b, c). -/
def zip3 {α β γ : Type} (a : List α) (b : List β) (c : List γ) : List (α × β × γ) :=
  (a.zip (b.zip c)).map (fun p => (p.1, p.2.1, p.2.2))

/-- The grading loop over zip(student_answers, answer_key, weights)
(processor.py lines 954-1052). -/
def gradeAll (totalWeight : ℚ) (optionsPerQuestion : List (List Str)) :
    Nat → List (Str × Str × ℚ) → Except GradeError (List GradeItem)
  | _, [] => .ok []
  | i, (sa, ca, w) :: rest => do
    let qp := questionPoints w totalWeight
    let opts := optionsPerQuestion.getD i []
    let r ← gradeOne i qp opts sa ca
    let restItems ← gradeAll totalWeight optionsPerQuestion (i + 1) rest
    pure ({ questionNumber := i + 1, isCorrect := r.1, weight := w,
            points := r.2, maxPoints := qp,
            isTestQuestion := decide (0 < opts.length) } :: restItems)

/-- Decodes the persisted answers field: split on comma, strip each piece
(processor.py lines 935-939). -/
def decodeAnswersField (s : Str) : List Str := (splitOnChar ',' s).map pyStrip

/-- Parses one weight piece as Python float(piece) restricted to the unsigned
decimal numerals the encoder emits; any other shape is a parse failure. -/
def parseFloat (s : Str) : Option ℚ :=
  match splitOnChar '.' s with
  | [a] =>
    if a ≠ [] ∧ a.all isDigitCh then some (digitsVal a : Nat)
    else none
  | [a, b] =>
    if a ≠ [] ∧ a.all isDigitCh ∧ b ≠ [] ∧ b.all isDigitCh then
      some ((digitsVal a : Nat) + (digitsVal b : Nat) / (10 : ℚ) ^ b.length)
    else none
  | _ => none

/-- Decodes the persisted weights field: split on comma, strip, float()
(processor.py lines 941-942); a malformed piece is a hard error. -/
def parseWeightsField (weightsField : Str) : Except GradeError (List ℚ) :=
  (splitOnChar ',' weightsField).mapM (fun p =>
    match parseFloat (pyStrip p) with
    | some w => .ok w
    | none => .error (.badWeight p))

/-- The scoring engine: check_student_answers after the Excel row for the
requested variant has been located.  answersField/weightsField are the two
persisted strings of that row; optionsPerQuestion lists, per 1-based question
position, the option texts recovered from the detailed sheet (empty when the
sheet has none, which makes the question count as open). -/
def checkStudentAnswers (variantNumber : Nat) (answersField weightsField : Str)
    (optionsPerQuestion : List (List Str)) (studentAnswers : List Str) :
    Except GradeError CheckResult := do
  let answerKey := decodeAnswersField answersField
  let weights ← parseWeightsField weightsField
  if studentAnswers.length ≠ answerKey.length then
    .error (.countMismatch studentAnswers.length answerKey.length)
  else
    let totalWeight := weights.sum
    let items ← gradeAll totalWeight optionsPerQuestion 0 (zip3 studentAnswers answerKey weights)
    let weightedScore := (items.map (·.points)).sum
    pure { variantNumber := variantNumber,
           totalQuestions := answerKey.length,
           correctAnswers := (items.filter (·.isCorrect)).length,
           scorePercentage := weightedScore / 12 * 100,
           weightedScore := weightedScore,
           maxScore := 12,
           detailed := items }

/-! ### Variant generation (generate_test_variants, processor.py lines 491-622) -/

/-- Lexicographic code-point comparison of strings, as Python sorted uses. -/
def lexLe : Str → Str → Bool
  | [], _ => true
  | _ :: _, [] => false
  | a :: as, b :: bs =>
    if a.toNat < b.toNat then true
    else if a.toNat = b.toNat then lexLe as bs
    else false

/-- Propositional form of lexLe, for Mathlib's insertion sort. -/
def lexLeP (a b : Str) : Prop := lexLe a b = true

instance : DecidableRel lexLeP := fun a b => by
  unfold lexLeP
  infer_instance

/-- Errors raised by generate_test_variants; each carries the data interpolated
into the Python error message (the question text is truncated to 50 chars). -/
inductive GenError where
  | tooFewOptions (questionPrefix : Str)
  | noValidCorrect (rawCorrect : Str) (questionPrefix : Str)
deriving DecidableEq, Repr

/-- One row of the loaded question bank, as generate_test_variants consumes it.
The question number is a STRING: read_test_excel casts the whole column with
astype(str) (processor.py line 236) and nothing converts it back, so grouping
and sorting downstream operate on the string form.  Option cells are likewise
already stringified. -/
structure BankRow where
  number : Str
  question : Str
  weight : ℚ
  isTestQuestion : Bool
  optionCells : List Str
  correctAnswer : Str
deriving DecidableEq, Repr

instance : Inhabited BankRow :=
  ⟨{ number := [], question := [], weight := 1, isTestQuestion := false,
     optionCells := [], correctAnswer := [] }⟩

/-- One question of a generated variant. -/
structure QuestionData where
  questionText : Str
  weight : ℚ
  isTestQuestion : Bool
  options : List Str
  correctAnswer : Str
deriving DecidableEq, Repr

/-- Builds the option list of a test question from its cells: keep the cells
that are non-empty after stripping and not the pandas artefact "nan", in
source order, stripped (processor.py lines 535-547). -/
def buildOptions (cells : List Str) : List Str :=
  (cells.filter (fun c => pyStrip c ≠ [] ∧ c ≠ strL "nan")).map pyStrip

/-- Resolves one character of the normalized correct-answer string against the
option list (processor.py lines 561-575): a Ukrainian letter within the first
len(options) letters maps to its alphabet index; otherwise a digit d maps to
index d-1 when in range; any other character is silently skipped (None). -/
def matchLetter (c : Char) (options : List Str) : Option (Nat × Str) :=
  if c ∈ ukrainianLetters.take options.length then
    let idx := idxOfL ukrainianLetters c
    if idx < options.length then some (idx, options.getD idx []) else none
  else if isDigitCh c then
    let v := c.toNat - 48
    if 1 ≤ v ∧ v - 1 < options.length then some (v - 1, options.getD (v - 1) []) else none
  else none

/-- Collects the (index, option text) pairs named by the correct-answer string
(the correct_answer_indices / correct_option_texts loop). -/
def collectCorrect (correctStr : Str) (options : List Str) : List (Nat × Str) :=
  correctStr.foldl (fun acc c => acc ++ (matchLetter c options).toList) []

/-- Letter label for an option position: the alphabet letter when the position
fits, else the 1-based position as a numeral (processor.py line 591). -/
def letterFor (idx : Nat) : Str :=
  if h : idx < ukrainianLetters.length then [ukrainianLetters.get ⟨idx, h⟩]
  else natDigitsStr (idx + 1)

/-- Recomputed correct letters after the shuffle: for each originally-correct
option text, the label of its first position in the shuffled list
(processor.py lines 588-592). -/
def newCorrectLetters (shuffledOptions : List Str) (correctTexts : List Str) : List Str :=
  correctTexts.map (fun t => letterFor (idxOfL shuffledOptions t))

/-- Final stored correct answer: the recomputed letters sorted and joined
(processor.py line 595). -/
def combinedCorrectAnswer (shuffledOptions : List Str) (correctTexts : List Str) : Str :=
  (List.insertionSort lexLeP (newCorrectLetters shuffledOptions correctTexts)).flatten

/-- Builds one test question of a variant (processor.py lines 533-600).
shuffle is the oracle for random.shuffle; with answer_shuffle_mode = none the
identity is passed. -/
def buildTestQuestion (shuffle : List Str → List Str) (row : BankRow) :
    Except GenError QuestionData :=
  let options := buildOptions row.optionCells
  if options.length < 2 then .error (.tooFewOptions (row.question.take 50))
  else
    let collected := collectCorrect (pyUpper (pyStrip row.correctAnswer)) options
    if collected = [] then
      .error (.noValidCorrect row.correctAnswer (row.question.take 50))
    else
      let shuffledOptions := shuffle options
      .ok { questionText := row.question, weight := row.weight,
            isTestQuestion := true, options := shuffledOptions,
            correctAnswer := combinedCorrectAnswer shuffledOptions (collected.map Prod.snd) }

/-- Builds one question of a variant: test questions go through
buildTestQuestion, open questions copy the stripped answer and keep no options
(processor.py lines 601-609). -/
def buildQuestion (shuffle : List Str → List Str) (row : BankRow) :
    Except GenError QuestionData :=
  if row.isTestQuestion then buildTestQuestion shuffle row
  else .ok { questionText := row.question, weight := row.weight,
             isTestQuestion := false, options := [],
             correctAnswer := pyStrip row.correctAnswer }

/-- One generated variant; answerKey collects the stored correct answer of
every question in order (processor.py lines 613-617). -/
structure VariantData where
  variantNumber : Nat
  questions : List QuestionData
  answerKey : List Str
deriving DecidableEq, Repr

/-- generate_test_variants: for each variant number the bank is re-resolved
and re-ordered (resolveOrder oracle, covering _process_optional_questions and
the question-order mode) and every row is built; any row error aborts the
whole call with no partial batch (processor.py lines 491-622). -/
def generateTestVariants (shuffle : List Str → List Str)
    (resolveOrder : Nat → List BankRow) (numVariants : Nat) :
    Except GenError (List VariantData) :=
  (List.range numVariants).mapM (fun v => do
    let rows := resolveOrder v
    let qs ← rows.mapM (buildQuestion shuffle)
    pure { variantNumber := v + 1, questions := qs,
           answerKey := qs.map (·.correctAnswer) })

/-! ### Answer-key codec, encode side (create_excel_answer_key, lines 833-848)

Python str(float) prints the shortest decimal numeral that parses back to the
float; for the decimal-valued weights the program handles this is modelled
exactly by ratRepr: the numeral with the fewest fraction digits. -/

/-- Left-pads a numeral with zeros to a given width. -/
def padZeros (k : Nat) (s : Str) : Str := List.replicate (k - s.length) '0' ++ s

/-- Smallest number of fraction digits with which q prints exactly (searched
over a fixed range large enough for every value the program handles). -/
def decExp (q : ℚ) : Nat :=
  (((List.range 400).filter (fun k => (q * (10 : ℚ) ^ k).den = 1))).headD 400

/-- Python str of a nonnegative decimal float value. -/
def ratRepr (q : ℚ) : Str :=
  let k := decExp q
  let n := (q * (10 : ℚ) ^ k).num.toNat
  if k = 0 then natDigitsStr n ++ strL ".0"
  else natDigitsStr (n / 10 ^ k) ++ '.' :: padZeros k (natDigitsStr (n % 10 ^ k))

/-- Encoded answers field of one variant: comma-join of the stored correct
answers (processor.py line 838). -/
def encodeAnswersField (answerKey : List Str) : Str := joinComma answerKey

/-- Encoded weights field of one variant: comma-join of str(weight)
(processor.py line 840). -/
def encodeWeightsField (weights : List ℚ) : Str := joinComma (weights.map ratRepr)

/-! ### Optional-question resolver (_process_optional_questions, lines 455-489) -/

/-- Comparator ordering bank rows by their string-typed question number, as
pandas sort_values does on an astype(str) column: lexicographically by code
point, not numerically. -/
def rowNumLe (a b : BankRow) : Prop := lexLeP a.number b.number

instance : DecidableRel rowNumLe := fun a b => by
  unfold rowNumLe
  infer_instance

/-- Distinct question-number strings in the order pandas
groupby('question_number') enumerates the groups: lexicographic order of the
string keys (so the string forms 1 and 1.0 are two distinct keys, and 10
precedes 2). -/
def groupKeys (df : List BankRow) : List Str :=
  List.insertionSort lexLeP (df.map (·.number)).dedup

/-- Selection inside one group: groups of size >1 pick via the random oracle
sel, singleton groups pass through (processor.py lines 471-480). -/
def selectFromGroup (sel : Str → List BankRow → BankRow) (n : Str) (g : List BankRow) :
    BankRow :=
  if 1 < g.length then sel n g else g.headD default

/-- The optional-question resolver: one row per distinct question-number
string, then a final sort_values by the string-typed question number
(processor.py lines 455-489).  sel is the oracle for group.sample(n=1). -/
def processOptionalQuestions (sel : Str → List BankRow → BankRow) (df : List BankRow) :
    List BankRow :=
  let selected := (groupKeys df).map
    (fun n => selectFromGroup sel n (df.filter (fun r => r.number = n)))
  List.insertionSort rowNumLe selected

/-! ### Basic lemmas about the string model -/

theorem splitOnChar_of_not_mem {sep : Char} {s : Str} (h : sep ∉ s) :
    splitOnChar sep s = [s] := by
  induction s with
  | nil => rfl
  | cons c rest ih =>
    have hc : c ≠ sep := fun hcs => h (hcs ▸ List.mem_cons_self c rest)
    have hr : sep ∉ rest := fun hm => h (List.mem_cons_of_mem c hm)
    simp only [splitOnChar, ih hr, if_neg hc]

theorem splitOnChar_append_sep {sep : Char} {a : Str} (b : Str) (h : sep ∉ a) :
    splitOnChar sep (a ++ sep :: b) = a :: splitOnChar sep b := by
  induction a with
  | nil => simp [splitOnChar]
  | cons c a ih =>
    have hc : c ≠ sep := fun hcs => h (hcs ▸ List.mem_cons_self c a)
    have ha : sep ∉ a := fun hm => h (List.mem_cons_of_mem c hm)
    simp only [List.cons_append, splitOnChar, List.append_eq, ih ha, if_neg hc]

theorem splitOnChar_joinComma {l : List Str} (hne : l ≠ [])
    (hc : ∀ p ∈ l, ',' ∉ p) : splitOnChar ',' (joinComma l) = l := by
  induction l with
  | nil => exact absurd rfl hne
  | cons x rest ih =>
    cases rest with
    | nil => exact splitOnChar_of_not_mem (hc x (List.mem_cons_self x []))
    | cons y t =>
      have hx : ',' ∉ x := hc x (List.mem_cons_self x (y :: t))
      have hrest : ∀ p ∈ y :: t, ',' ∉ p := fun p hp => hc p (List.mem_cons_of_mem x hp)
      simp only [joinComma, splitOnChar_append_sep _ hx,
        ih (by simp) hrest]

theorem dropWhile_eq_self_of_none {p : Char → Bool} {s : Str}
    (h : ∀ c ∈ s, p c = false) : s.dropWhile p = s := by
  cases s with
  | nil => rfl
  | cons c rest =>
    simp [List.dropWhile, h c (List.mem_cons_self c rest)]

theorem pyStrip_eq_self {s : Str} (h : ∀ c ∈ s, isSpaceCh c = false) :
    pyStrip s = s := by
  unfold pyStrip
  rw [dropWhile_eq_self_of_none h,
      dropWhile_eq_self_of_none (fun c hc => h c (List.mem_reverse.mp hc)),
      List.reverse_reverse]

theorem headD_mem {α : Type} {l : List α} (h : l ≠ []) (d : α) : l.headD d ∈ l := by
  cases l with
  | nil => exact absurd rfl h
  | cons a t => exact List.mem_cons_self a t

theorem getD_map {α β : Type} (f : α → β) {l : List α} {k : Nat}
    (h : k < l.length) (d : β) (d' : α) : (l.map f).getD k d = f (l.getD k d') := by
  induction l generalizing k with
  | nil => simp at h
  | cons a t ih =>
    cases k with
    | zero => rfl
    | succ k => exact ih (by simpa using h)

theorem idxOfL_lt_length {α : Type} [DecidableEq α] {l : List α} {a : α}
    (h : a ∈ l) : idxOfL l a < l.length := by
  induction l with
  | nil => simp at h
  | cons x t ih =>
    by_cases hx : x = a
    · simp [idxOfL, hx]
    · have ha : a ∈ t := by
        rcases List.mem_cons.mp h with h' | h'
        · exact absurd h'.symm hx
        · exact h'
      simpa [idxOfL, hx] using ih ha

theorem getD_idxOfL {α : Type} [DecidableEq α] {l : List α} {a : α}
    (h : a ∈ l) (d : α) : l.getD (idxOfL l a) d = a := by
  induction l with
  | nil => simp at h
  | cons x t ih =>
    by_cases hx : x = a
    · simp [idxOfL, hx]
    · have ha : a ∈ t := by
        rcases List.mem_cons.mp h with h' | h'
        · exact absurd h'.symm hx
        · exact h'
      simpa [idxOfL, hx] using ih ha

/-! ### Lemmas about decimal numerals -/

theorem digitChar_toNat {n : Nat} (h : n < 10) : (digitChar n).toNat = 48 + n := by
  interval_cases n <;> rfl

theorem natDigitsAux_congr :
    ∀ {fuel fuel' n : Nat}, n < fuel → n < fuel' →
      natDigitsAux fuel n = natDigitsAux fuel' n := by
  intro fuel
  induction fuel with
  | zero => intro fuel' n h; omega
  | succ f ih =>
    intro fuel' n h h'
    cases fuel' with
    | zero => omega
    | succ f' =>
      simp only [natDigitsAux]
      by_cases h10 : n < 10
      · simp [h10]
      · have hd : n / 10 < n := Nat.div_lt_self (by omega) (by omega)
        simp only [if_neg h10]
        rw [@ih f' (n / 10) (by omega) (by omega)]

theorem natDigitsStr_eq (n : Nat) :
    natDigitsStr n =
      if n < 10 then [digitChar n]
      else natDigitsStr (n / 10) ++ [digitChar (n % 10)] := by
  by_cases h10 : n < 10
  · simp only [natDigitsStr, natDigitsAux, if_pos h10]
  · have hd : n / 10 < n := Nat.div_lt_self (by omega) (by omega)
    have step : natDigitsStr n = natDigitsAux n (n / 10) ++ [digitChar (n % 10)] := by
      simp only [natDigitsStr, natDigitsAux]
      rw [if_neg h10]
    rw [step, if_neg h10,
        @natDigitsAux_congr n (n / 10 + 1) (n / 10) hd (Nat.lt_succ_self _)]
    rfl

theorem digitsVal_append_singleton (s : Str) (c : Char) :
    digitsVal (s ++ [c]) = 10 * digitsVal s + (c.toNat - 48) := by
  simp [digitsVal, List.foldl_append]

theorem digitsVal_natDigitsStr (n : Nat) : digitsVal (natDigitsStr n) = n := by
  induction n using Nat.strong_induction_on with
  | _ n ih =>
    rw [natDigitsStr_eq]
    by_cases h10 : n < 10
    · simp [digitsVal, h10, digitChar_toNat h10]
    · have hd : n / 10 < n := Nat.div_lt_self (by omega) (by omega)
      rw [if_neg h10, digitsVal_append_singleton, ih _ hd,
          digitChar_toNat (Nat.mod_lt _ (by omega))]
      omega

theorem natDigitsStr_ne_nil (n : Nat) : natDigitsStr n ≠ [] := by
  rw [natDigitsStr_eq]
  by_cases h10 : n < 10 <;> simp [h10]

theorem mem_natDigitsStr {n : Nat} {c : Char} (h : c ∈ natDigitsStr n) :
    48 ≤ c.toNat ∧ c.toNat ≤ 57 := by
  induction n using Nat.strong_induction_on with
  | _ n ih =>
    rw [natDigitsStr_eq] at h
    by_cases h10 : n < 10
    · rw [if_pos h10] at h
      rcases List.mem_singleton.mp h with rfl
      rw [digitChar_toNat h10]
      omega
    · rw [if_neg h10] at h
      rcases List.mem_append.mp h with h' | h'
      · exact ih _ (Nat.div_lt_self (by omega) (by omega)) h'
      · rcases List.mem_singleton.mp h' with rfl
        rw [digitChar_toNat (Nat.mod_lt _ (by omega))]
        have := Nat.mod_lt n (show 0 < 10 by omega)
        omega

theorem natDigitsStr_length_le {n k : Nat} (hk : 1 ≤ k) (h : n < 10 ^ k) :
    (natDigitsStr n).length ≤ k := by
  induction k generalizing n with
  | zero => omega
  | succ k ih =>
    rw [natDigitsStr_eq]
    by_cases h10 : n < 10
    · simp [h10]
    · rw [if_neg h10]
      have hk1 : 1 ≤ k := by
        by_contra hk0
        have : k = 0 := by omega
        subst this
        simp at h
        omega
      have hdiv : n / 10 < 10 ^ k := by
        rw [Nat.div_lt_iff_lt_mul (by omega)]
        calc n < 10 ^ (k + 1) := h
        _ = 10 ^ k * 10 := by ring
      have := ih hk1 hdiv
      simp only [List.length_append, List.length_singleton]
      omega

theorem digitsVal_replicate_zero_append (j : Nat) (s : Str) :
    digitsVal (List.replicate j '0' ++ s) = digitsVal s := by
  induction j with
  | zero => rfl
  | succ j ih =>
    have : List.replicate (j + 1) '0' ++ s = '0' :: (List.replicate j '0' ++ s) := by
      simp [List.replicate_succ]
    rw [this]
    simpa [digitsVal] using ih

theorem digitsVal_padZeros (k : Nat) (s : Str) :
    digitsVal (padZeros k s) = digitsVal s :=
  digitsVal_replicate_zero_append _ _

theorem padZeros_length {k : Nat} {s : Str} (h : s.length ≤ k) :
    (padZeros k s).length = k := by
  simp [padZeros]
  omega

theorem mem_padZeros {k : Nat} {s : Str} {c : Char} (h : c ∈ padZeros k s) :
    c = '0' ∨ c ∈ s := by
  rcases List.mem_append.mp h with h' | h'
  · exact Or.inl (List.eq_of_mem_replicate h')
  · exact Or.inr h'

/-! ### Round trip of the weight representation -/

theorem isDigitCh_iff {c : Char} : isDigitCh c = true ↔ 48 ≤ c.toNat ∧ c.toNat ≤ 57 := by
  simp [isDigitCh]

theorem decExp_den {q : ℚ} (h : ∃ k, k < 400 ∧ (q * (10 : ℚ) ^ k).den = 1) :
    (q * (10 : ℚ) ^ decExp q).den = 1 := by
  obtain ⟨k, hk, hden⟩ := h
  have hmem : k ∈ (List.range 400).filter (fun j => (q * (10 : ℚ) ^ j).den = 1) := by
    rw [List.mem_filter]
    exact ⟨List.mem_range.mpr hk, by simpa using hden⟩
  have hne : (List.range 400).filter (fun j => (q * (10 : ℚ) ^ j).den = 1) ≠ [] := by
    intro h0
    rw [h0] at hmem
    exact absurd hmem (List.not_mem_nil k)
  have hh := headD_mem hne 400
  rw [List.mem_filter] at hh
  have := hh.2
  simpa [decExp] using this

theorem dot_not_mem_natDigitsStr (n : Nat) : '.' ∉ natDigitsStr n := by
  intro h
  have h1 := mem_natDigitsStr h
  have h2 : ('.').toNat = 46 := rfl
  rw [h2] at h1
  omega

theorem parseFloat_pair {s a b : Str} (hs : splitOnChar '.' s = [a, b]) (ha : a ≠ [])
    (hda : a.all isDigitCh = true) (hb : b ≠ []) (hdb : b.all isDigitCh = true) :
    parseFloat s = some ((digitsVal a : ℚ) + (digitsVal b : ℚ) / (10 : ℚ) ^ b.length) := by
  simp only [parseFloat, hs]
  rw [if_pos ⟨ha, hda, hb, hdb⟩]

theorem parseFloat_ratRepr {q : ℚ} (h0 : 0 ≤ q)
    (h : ∃ k, k < 400 ∧ (q * (10 : ℚ) ^ k).den = 1) :
    parseFloat (ratRepr q) = some q ∧
    ∀ c ∈ ratRepr q, (48 ≤ c.toNat ∧ c.toNat ≤ 57) ∨ c = '.' := by
  have hden := decExp_den h
  set k := decExp q with hkdef
  set n := (q * (10 : ℚ) ^ k).num.toNat with hndef
  have hnum : ((q * (10 : ℚ) ^ k).num : ℚ) = q * (10 : ℚ) ^ k :=
    (Rat.den_eq_one_iff _).mp hden
  have hpos : (0 : ℚ) ≤ q * (10 : ℚ) ^ k :=
    mul_nonneg h0 (pow_nonneg (by norm_num) _)
  have hnn : ((n : ℤ) : ℚ) = q * (10 : ℚ) ^ k := by
    rw [hndef, Int.toNat_of_nonneg (Rat.num_nonneg.mpr hpos)]
    exact hnum
  have hq : q = (n : ℚ) / (10 : ℚ) ^ k := by
    rw [eq_div_iff (by positivity : (10 : ℚ) ^ k ≠ 0)]
    exact_mod_cast hnn.symm
  have hdigits : ∀ m : Nat, (natDigitsStr m).all isDigitCh = true := by
    intro m
    rw [List.all_eq_true]
    intro c hc
    exact isDigitCh_iff.mpr (mem_natDigitsStr hc)
  by_cases hk0 : k = 0
  · have hrepr : ratRepr q = natDigitsStr n ++ '.' :: ['0'] := by
      simp only [ratRepr, ← hkdef, ← hndef]
      rw [if_pos hk0]
      rfl
    have hsplit : splitOnChar '.' (ratRepr q) = [natDigitsStr n, ['0']] := by
      rw [hrepr, splitOnChar_append_sep _ (dot_not_mem_natDigitsStr n),
          splitOnChar_of_not_mem (by decide)]
    constructor
    · rw [parseFloat_pair hsplit (natDigitsStr_ne_nil n) (hdigits n) (by decide) (by decide)]
      have hz : digitsVal ['0'] = 0 := rfl
      rw [digitsVal_natDigitsStr, hz, hq, hk0]
      push_cast
      norm_num
    · intro c hc
      rw [hrepr] at hc
      rcases List.mem_append.mp hc with h' | h'
      · exact Or.inl (mem_natDigitsStr h')
      · rcases List.mem_cons.mp h' with rfl | h''
        · exact Or.inr rfl
        · rcases List.mem_singleton.mp h'' with rfl
          exact Or.inl (by decide)
  · have hk1 : 1 ≤ k := Nat.one_le_iff_ne_zero.mpr hk0
    have hmodlt : n % 10 ^ k < 10 ^ k := Nat.mod_lt _ (Nat.pos_pow_of_pos k (by omega))
    have hblen : (padZeros k (natDigitsStr (n % 10 ^ k))).length = k :=
      padZeros_length (natDigitsStr_length_le hk1 hmodlt)
    have hbne : padZeros k (natDigitsStr (n % 10 ^ k)) ≠ [] := by
      intro h0
      rw [h0] at hblen
      simp at hblen
      omega
    have hbdig : (padZeros k (natDigitsStr (n % 10 ^ k))).all isDigitCh = true := by
      rw [List.all_eq_true]
      intro c hc
      rcases mem_padZeros hc with rfl | h'
      · decide
      · exact isDigitCh_iff.mpr (mem_natDigitsStr h')
    have hbdot : '.' ∉ padZeros k (natDigitsStr (n % 10 ^ k)) := by
      intro hc
      rcases mem_padZeros hc with h' | h'
      · exact absurd h' (by decide)
      · exact dot_not_mem_natDigitsStr _ h'
    have hrepr : ratRepr q =
        natDigitsStr (n / 10 ^ k) ++ '.' :: padZeros k (natDigitsStr (n % 10 ^ k)) := by
      simp only [ratRepr, ← hkdef, ← hndef]
      rw [if_neg hk0]
    have hsplit : splitOnChar '.' (ratRepr q) =
        [natDigitsStr (n / 10 ^ k), padZeros k (natDigitsStr (n % 10 ^ k))] := by
      rw [hrepr, splitOnChar_append_sep _ (dot_not_mem_natDigitsStr _),
          splitOnChar_of_not_mem hbdot]
    constructor
    · rw [parseFloat_pair hsplit (natDigitsStr_ne_nil _) (hdigits _) hbne hbdig]
      rw [digitsVal_padZeros, digitsVal_natDigitsStr, digitsVal_natDigitsStr, hblen, hq]
      have hnat : 10 ^ k * (n / 10 ^ k) + n % 10 ^ k = n := Nat.div_add_mod n (10 ^ k)
      have hcast : (10 : ℚ) ^ k * ((n / 10 ^ k : ℕ) : ℚ) + ((n % 10 ^ k : ℕ) : ℚ) = (n : ℚ) := by
        exact_mod_cast congrArg (fun m : ℕ => (m : ℚ)) hnat
      have hpk : (10 : ℚ) ^ k ≠ 0 := by positivity
      field_simp
      linear_combination hcast
    · intro c hc
      rw [hrepr] at hc
      rcases List.mem_append.mp hc with h' | h'
      · exact Or.inl (mem_natDigitsStr h')
      · rcases List.mem_cons.mp h' with rfl | h''
        · exact Or.inr rfl
        · rcases mem_padZeros h'' with rfl | h3
          · exact Or.inl (by decide)
          · exact Or.inl (mem_natDigitsStr h3)

/-! ### Lemmas about monadic traversals over Except -/

theorem mapM_map_ok {ε α β γ : Type} (f : α → β) (g : β → Except ε γ) (r : α → γ)
    (l : List α) (h : ∀ a ∈ l, g (f a) = .ok (r a)) :
    (l.map f).mapM g = .ok (l.map r) := by
  induction l with
  | nil => rfl
  | cons a t ih =>
    have ha := h a (List.mem_cons_self a t)
    have ht := ih (fun x hx => h x (List.mem_cons_of_mem a hx))
    simp only [List.map_cons, List.mapM_cons, ha, ht]
    rfl

theorem mapM_error_of_exists {ε α β : Type} (f : α → Except ε β) (l : List α)
    (h : ∃ a ∈ l, ∃ e, f a = .error e) : ∃ e, l.mapM f = .error e := by
  induction l with
  | nil => simp at h
  | cons a t ih =>
    cases hfa : f a with
    | error e =>
      refine ⟨e, ?_⟩
      simp only [List.mapM_cons, hfa]
      rfl
    | ok b =>
      obtain ⟨x, hx, e, hxe⟩ := h
      rcases List.mem_cons.mp hx with rfl | hxt
      · rw [hfa] at hxe
        exact absurd hxe (by simp)
      · obtain ⟨e', he'⟩ := ih ⟨x, hxt, e, hxe⟩
        refine ⟨e', ?_⟩
        simp only [List.mapM_cons, hfa, he']
        rfl

/-- Default triple for positional access into the grading list. -/
def dfltTriple : Str × Str × ℚ := ([], [], 0)

theorem gradeAll_ok_length {tw : ℚ} {opts : List (List Str)} :
    ∀ {i : Nat} {ts : List (Str × Str × ℚ)} {items : List GradeItem},
      gradeAll tw opts i ts = .ok items → items.length = ts.length := by
  intro i ts
  induction ts generalizing i with
  | nil =>
    intro items h
    simp only [gradeAll] at h
    cases h
    rfl
  | cons t rest ih =>
    intro items h
    obtain ⟨sa, ca, w⟩ := t
    simp only [gradeAll] at h
    cases hg : gradeOne i (questionPoints w tw) (opts.getD i []) sa ca with
    | error e => rw [hg] at h; exact absurd h (by simp [Bind.bind, Except.bind, Functor.map, Except.map])
    | ok r =>
      rw [hg] at h
      cases hrest : gradeAll tw opts (i + 1) rest with
      | error e => rw [hrest] at h; exact absurd h (by simp [Bind.bind, Except.bind, Functor.map, Except.map])
      | ok restItems =>
        rw [hrest] at h
        simp only [Bind.bind, Except.bind, Pure.pure, Except.pure] at h
        cases h
        simp [ih hrest]

theorem gradeAll_ok_maxPoints {tw : ℚ} {opts : List (List Str)} :
    ∀ {i : Nat} {ts : List (Str × Str × ℚ)} {items : List GradeItem},
      gradeAll tw opts i ts = .ok items →
      items.map (·.maxPoints) = ts.map (fun t => questionPoints t.2.2 tw) := by
  intro i ts
  induction ts generalizing i with
  | nil =>
    intro items h
    simp only [gradeAll] at h
    cases h
    rfl
  | cons t rest ih =>
    intro items h
    obtain ⟨sa, ca, w⟩ := t
    simp only [gradeAll] at h
    cases hg : gradeOne i (questionPoints w tw) (opts.getD i []) sa ca with
    | error e => rw [hg] at h; exact absurd h (by simp [Bind.bind, Except.bind, Functor.map, Except.map])
    | ok r =>
      rw [hg] at h
      cases hrest : gradeAll tw opts (i + 1) rest with
      | error e => rw [hrest] at h; exact absurd h (by simp [Bind.bind, Except.bind, Functor.map, Except.map])
      | ok restItems =>
        rw [hrest] at h
        simp only [Bind.bind, Except.bind, Pure.pure, Except.pure] at h
        cases h
        simp [ih hrest]

theorem gradeAll_error_of_exists {tw : ℚ} {opts : List (List Str)} :
    ∀ {i : Nat} {ts : List (Str × Str × ℚ)},
      (∃ j, j < ts.length ∧ ∃ e,
        gradeOne (i + j) (questionPoints (ts.getD j dfltTriple).2.2 tw)
          (opts.getD (i + j) []) (ts.getD j dfltTriple).1 (ts.getD j dfltTriple).2.1 =
          .error e) →
      ∃ e, gradeAll tw opts i ts = .error e := by
  intro i ts
  induction ts generalizing i with
  | nil =>
    intro h
    obtain ⟨j, hj, _⟩ := h
    simp at hj
  | cons t rest ih =>
    intro h
    obtain ⟨sa, ca, w⟩ := t
    cases hg : gradeOne i (questionPoints w tw) (opts.getD i []) sa ca with
    | error e =>
      refine ⟨e, ?_⟩
      simp only [gradeAll, hg]
      rfl
    | ok r =>
      obtain ⟨j, hj, e, hje⟩ := h
      cases j with
      | zero =>
        simp only [List.getD_cons_zero, Nat.add_zero] at hje
        rw [hje] at hg
        exact absurd hg (by simp)
      | succ j' =>
        have hrec : ∃ e', gradeAll tw opts (i + 1) rest = .error e' := by
          apply ih
          refine ⟨j', by simpa using hj, e, ?_⟩
          have harith : i + 1 + j' = i + (j' + 1) := by omega
          rw [harith]
          simpa using hje
        obtain ⟨e', he'⟩ := hrec
        refine ⟨e', ?_⟩
        simp only [gradeAll, hg, he']
        rfl

/-! ### Lemmas about the lexicographic order used by sorted() -/

theorem lexLe_total : ∀ a b : Str, lexLe a b = true ∨ lexLe b a = true := by
  intro a
  induction a with
  | nil => intro b; left; rfl
  | cons c as ih =>
    intro b
    cases b with
    | nil => right; rfl
    | cons d bs =>
      simp only [lexLe]
      rcases Nat.lt_trichotomy c.toNat d.toNat with h | h | h
      · left; simp [h]
      · rcases ih bs with h' | h'
        · left; simp [h, h']
        · right; simp [h.symm, h']
      · right; simp [h]

theorem lexLe_trans :
    ∀ a b c : Str, lexLe a b = true → lexLe b c = true → lexLe a c = true := by
  intro a
  induction a with
  | nil => intro b c _ _; rfl
  | cons x as ih =>
    intro b c hab hbc
    cases b with
    | nil => simp [lexLe] at hab
    | cons y bs =>
      cases c with
      | nil => simp [lexLe] at hbc
      | cons z cs =>
        simp only [lexLe] at hab hbc ⊢
        rcases Nat.lt_trichotomy x.toNat y.toNat with h1 | h1 | h1 <;>
          rcases Nat.lt_trichotomy y.toNat z.toNat with h2 | h2 | h2
        · simp [show x.toNat < z.toNat by omega]
        · simp [show x.toNat < z.toNat by omega]
        · rw [if_neg (show ¬ y.toNat < z.toNat by omega),
              if_neg (show ¬ y.toNat = z.toNat by omega)] at hbc
          exact Bool.noConfusion hbc
        · simp [show x.toNat < z.toNat by omega]
        · have hxz : x.toNat = z.toNat := by omega
          rw [if_neg (show ¬ x.toNat < z.toNat by omega), if_pos hxz]
          rw [if_neg (show ¬ x.toNat < y.toNat by omega), if_pos h1] at hab
          rw [if_neg (show ¬ y.toNat < z.toNat by omega), if_pos h2] at hbc
          exact ih bs cs hab hbc
        · rw [if_neg (show ¬ y.toNat < z.toNat by omega),
              if_neg (show ¬ y.toNat = z.toNat by omega)] at hbc
          exact Bool.noConfusion hbc
        · rw [if_neg (show ¬ x.toNat < y.toNat by omega),
              if_neg (show ¬ x.toNat = y.toNat by omega)] at hab
          exact Bool.noConfusion hab
        · rw [if_neg (show ¬ x.toNat < y.toNat by omega),
              if_neg (show ¬ x.toNat = y.toNat by omega)] at hab
          exact Bool.noConfusion hab
        · rw [if_neg (show ¬ x.toNat < y.toNat by omega),
              if_neg (show ¬ x.toNat = y.toNat by omega)] at hab
          exact Bool.noConfusion hab

instance : IsTotal Str lexLeP :=
  ⟨fun a b => by
    unfold lexLeP
    rcases lexLe_total a b with h | h
    · exact Or.inl h
    · exact Or.inr h⟩

instance : IsTrans Str lexLeP :=
  ⟨fun a b c hab hbc => lexLe_trans a b c hab hbc⟩

theorem char_toNat_inj {a b : Char} (h : a.toNat = b.toNat) : a = b :=
  Char.ext (UInt32.ext h)

theorem lexLe_antisymm :
    ∀ a b : Str, lexLe a b = true → lexLe b a = true → a = b := by
  intro a
  induction a with
  | nil =>
    intro b _ hba
    cases b with
    | nil => rfl
    | cons d bs => simp [lexLe] at hba
  | cons c as ih =>
    intro b hab hba
    cases b with
    | nil => simp [lexLe] at hab
    | cons d bs =>
      simp only [lexLe] at hab hba
      rcases Nat.lt_trichotomy c.toNat d.toNat with h1 | h1 | h1
      · rw [if_neg (show ¬ d.toNat < c.toNat by omega),
            if_neg (show ¬ d.toNat = c.toNat by omega)] at hba
        exact Bool.noConfusion hba
      · rw [if_neg (show ¬ c.toNat < d.toNat by omega), if_pos h1] at hab
        rw [if_neg (show ¬ d.toNat < c.toNat by omega), if_pos h1.symm] at hba
        rw [char_toNat_inj h1, ih bs hab hba]
      · rw [if_neg (show ¬ c.toNat < d.toNat by omega),
            if_neg (show ¬ c.toNat = d.toNat by omega)] at hab
        exact Bool.noConfusion hab

instance : IsAntisymm Str lexLeP :=
  ⟨fun a b hab hba => lexLe_antisymm a b hab hba⟩

instance : IsTotal BankRow rowNumLe :=
  ⟨fun a b => lexLe_total a.number b.number⟩

instance : IsTrans BankRow rowNumLe :=
  ⟨fun a b c hab hbc => lexLe_trans a.number b.number c.number hab hbc⟩

theorem lexLe_singleton {a b : Char} : lexLe [a] [b] = true ↔ a.toNat ≤ b.toNat := by
  simp only [lexLe]
  split_ifs with h1 h2 <;> simp <;> omega

theorem alphaIdx_le_iff :
    ∀ a ∈ ukrainianLetters, ∀ b ∈ ukrainianLetters,
      (a.toNat ≤ b.toNat ↔ idxOfL ukrainianLetters a ≤ idxOfL ukrainianLetters b) := by
  decide

theorem flatten_singletons_sorted {L : List Str}
    (hs : ∀ x ∈ L, ∃ c ∈ ukrainianLetters, x = [c])
    (hp : L.Pairwise lexLeP) :
    L.flatten.Pairwise
      (fun a b => idxOfL ukrainianLetters a ≤ idxOfL ukrainianLetters b) ∧
    ∀ c ∈ L.flatten, c ∈ ukrainianLetters := by
  induction L with
  | nil => simp
  | cons x t ih =>
    obtain ⟨c, hc, rfl⟩ := hs _ (List.mem_cons_self x t)
    have hst : ∀ y ∈ t, ∃ d ∈ ukrainianLetters, y = [d] :=
      fun y hy => hs y (List.mem_cons_of_mem _ hy)
    obtain ⟨ihp, ihm⟩ := ih hst (List.Pairwise.of_cons hp)
    have hflat : ([c] :: t).flatten = c :: t.flatten := by simp
    rw [hflat]
    constructor
    · rw [List.pairwise_cons]
      refine ⟨?_, ihp⟩
      intro d hd
      obtain ⟨y, hy, hdy⟩ := List.mem_flatten.mp hd
      obtain ⟨d', hd', rfl⟩ := hst y hy
      rcases List.mem_singleton.mp hdy with rfl
      have hle : lexLeP [c] [d] := (List.pairwise_cons.mp hp).1 _ hy
      have := lexLe_singleton.mp hle
      exact (alphaIdx_le_iff c hc d hd').mp this
    · intro d hd
      rcases List.mem_cons.mp hd with rfl | hd'
      · exact hc
      · exact ihm d hd'

/-! ### Branch characterization of the per-question grader -/

theorem gradeOne_empty (i : Nat) (qp : ℚ) (opts : List Str) (sa ca : Str)
    (hs : pyStrip sa = []) : gradeOne i qp opts sa ca = .ok (false, 0) := by
  unfold gradeOne
  by_cases h : 0 < opts.length <;> simp [h, hs]

theorem gradeOne_multi (i : Nat) (qp : ℚ) (opts : List Str) (sa ca : Str)
    (hOpts : opts ≠ [])
    (hlen : 1 < (pyUpper (pyStrip sa)).length)
    (hvalid : ∀ ch ∈ pyUpper (pyStrip sa), ch ∈ ukrainianLetters) :
    gradeOne i qp opts sa ca =
      if (pyUpper (pyStrip sa)).toFinset = (pyUpper (pyStrip ca)).toFinset
      then .ok (true, qp) else .ok (false, 0) := by
  have hsne : pyStrip sa ≠ [] := by
    intro h0
    rw [pyUpper, h0] at hlen
    simp at hlen
  have hne : ¬(sa = [] ∨ pyStrip sa = []) := by
    rintro (rfl | h0)
    · exact hsne rfl
    · exact hsne h0
  have hfil : (pyUpper (pyStrip sa)).filter (fun ch => ¬ ch ∈ ukrainianLetters) = [] :=
    List.filter_eq_nil_iff.mpr (by simpa using hvalid)
  unfold gradeOne
  rw [if_pos (List.length_pos.mpr hOpts), if_neg hne]
  simp only [hfil]
  rw [if_pos hlen, if_neg (by simp)]

theorem gradeOne_single (i : Nat) (qp : ℚ) (opts : List Str) (sa ca : Str)
    (hOpts : opts ≠ [])
    (hlen : ¬ 1 < (pyUpper (pyStrip sa)).length)
    (hsne : pyStrip sa ≠ [])
    (hmem : pyUpper (pyStrip sa) ∈ ukrainianLetters.map (fun ch => [ch])) :
    gradeOne i qp opts sa ca =
      if pyUpper (pyStrip sa) = pyUpper (pyStrip ca)
      then .ok (true, qp) else .ok (false, 0) := by
  have hne : ¬(sa = [] ∨ pyStrip sa = []) := by
    rintro (rfl | h0)
    · exact hsne rfl
    · exact hsne h0
  unfold gradeOne
  rw [if_pos (List.length_pos.mpr hOpts), if_neg hne, if_neg hlen, if_pos hmem]

theorem gradeOne_single_invalid (i : Nat) (qp : ℚ) (opts : List Str) (sa ca : Str)
    (hOpts : opts ≠ [])
    (hlen : ¬ 1 < (pyUpper (pyStrip sa)).length)
    (hsne : pyStrip sa ≠ [])
    (hmem : pyUpper (pyStrip sa) ∉ ukrainianLetters.map (fun ch => [ch])) :
    gradeOne i qp opts sa ca = .error (.invalidLetter (i + 1) sa) := by
  have hne : ¬(sa = [] ∨ pyStrip sa = []) := by
    rintro (rfl | h0)
    · exact hsne rfl
    · exact hsne h0
  unfold gradeOne
  rw [if_pos (List.length_pos.mpr hOpts), if_neg hne, if_neg hlen, if_neg hmem]

theorem gradeOne_multi_invalid (i : Nat) (qp : ℚ) (opts : List Str) (sa ca : Str)
    (hOpts : opts ≠ [])
    (hlen : 1 < (pyUpper (pyStrip sa)).length)
    (hbad : ∃ ch ∈ pyUpper (pyStrip sa), ch ∉ ukrainianLetters) :
    gradeOne i qp opts sa ca =
      .error (.invalidLetters (i + 1)
        ((pyUpper (pyStrip sa)).filter (fun ch => ¬ ch ∈ ukrainianLetters))) := by
  have hsne : pyStrip sa ≠ [] := by
    intro h0
    rw [pyUpper, h0] at hlen
    simp at hlen
  have hne : ¬(sa = [] ∨ pyStrip sa = []) := by
    rintro (rfl | h0)
    · exact hsne rfl
    · exact hsne h0
  have hfil : (pyUpper (pyStrip sa)).filter (fun ch => ¬ ch ∈ ukrainianLetters) ≠ [] := by
    intro h0
    obtain ⟨ch, hch, hnm⟩ := hbad
    have := List.filter_eq_nil_iff.mp h0 ch hch
    simp at this
    exact hnm this
  unfold gradeOne
  rw [if_pos (List.length_pos.mpr hOpts), if_neg hne]
  rw [if_pos hlen, if_pos hfil]

theorem gradeOne_open (i : Nat) (qp : ℚ) (sa ca : Str)
    (hsne : pyStrip sa ≠ []) :
    gradeOne i qp [] sa ca =
      if pyLower (pyStrip sa) = pyLower (pyStrip ca)
      then .ok (true, qp) else .ok (false, 0) := by
  have hne : ¬(sa = [] ∨ pyStrip sa = []) := by
    rintro (rfl | h0)
    · exact hsne rfl
    · exact hsne h0
  unfold gradeOne
  rw [if_neg (by simp), if_neg hne]

/-- Decidable equality of Except values, for concrete evaluation. -/
instance {ε α : Type} [DecidableEq ε] [DecidableEq α] : DecidableEq (Except ε α) := fun a b =>
  match a, b with
  | .error e, .error f =>
    if h : e = f then .isTrue (h ▸ rfl) else .isFalse (fun he => h (Except.error.inj he))
  | .error _, .ok _ => .isFalse (fun he => Except.noConfusion he)
  | .ok _, .error _ => .isFalse (fun he => Except.noConfusion he)
  | .ok x, .ok y =>
    if h : x = y then .isTrue (h ▸ rfl) else .isFalse (fun he => h (Except.ok.inj he))

/-! ### Claim C1: selection of the matching rule -/

/-- Modelled from the spec's words (for comparison only, not from the source):
the matching rule claim C1 describes, selected by the shape of the persisted
correct-answer string — a length-1 letter string is graded by case-insensitive
exact match, a length-2-or-more letter string by set equality of letters, and
anything else as trimmed, case-folded free text; an empty submission is never
correct. -/
def specShapeMatchRule (studentAns correctAns : Str) : Bool :=
  if pyStrip studentAns = [] then false
  else if correctAns.length = 1 ∧ ∀ ch ∈ correctAns, ch ∈ ukrainianLetters then
    decide (pyUpper (pyStrip studentAns) = pyUpper correctAns)
  else if 2 ≤ correctAns.length ∧ ∀ ch ∈ correctAns, ch ∈ ukrainianLetters then
    decide ((pyUpper (pyStrip studentAns)).toFinset = (pyUpper correctAns).toFinset)
  else
    decide (pyLower (pyStrip studentAns) = pyLower (pyStrip correctAns))

/-- Claim C1 is false on the code: for a choice question with stored options
and the length-1 letter key "А", the submission "АА" is graded correct by the
code (the code picks set-vs-single comparison from the length of the student
answer, not from the shape of the key), while the shape-selected rule of the
claim grades it incorrect. -/
theorem claim_C1_counterexample :
    gradeOne 0 3 [strL "X", strL "Y"] (strL "АА") (strL "А") = .ok (true, 3) ∧
    specShapeMatchRule (strL "АА") (strL "А") = false := by
  constructor
  · decide
  · decide

/-- Amended claim C1: the grader selects test-vs-free-text grading by whether
the question has stored options, and inside test grading selects set equality
versus single-letter comparison by the length of the normalized (stripped,
upper-cased) student answer: length at least 2 means set equality of letters,
length 1 means case-insensitive exact match against the whole key, and a
question without options is graded as trimmed case-folded free text. -/
theorem claim_C1_amended :
    (∀ (i : Nat) (qp : ℚ) (opts : List Str) (sa ca : Str), opts ≠ [] →
      1 < (pyUpper (pyStrip sa)).length →
      (∀ ch ∈ pyUpper (pyStrip sa), ch ∈ ukrainianLetters) →
      gradeOne i qp opts sa ca =
        if (pyUpper (pyStrip sa)).toFinset = (pyUpper (pyStrip ca)).toFinset
        then .ok (true, qp) else .ok (false, 0)) ∧
    (∀ (i : Nat) (qp : ℚ) (opts : List Str) (sa ca : Str), opts ≠ [] →
      ¬ 1 < (pyUpper (pyStrip sa)).length → pyStrip sa ≠ [] →
      pyUpper (pyStrip sa) ∈ ukrainianLetters.map (fun ch => [ch]) →
      gradeOne i qp opts sa ca =
        if pyUpper (pyStrip sa) = pyUpper (pyStrip ca)
        then .ok (true, qp) else .ok (false, 0)) ∧
    (∀ (i : Nat) (qp : ℚ) (sa ca : Str), pyStrip sa ≠ [] →
      gradeOne i qp [] sa ca =
        if pyLower (pyStrip sa) = pyLower (pyStrip ca)
        then .ok (true, qp) else .ok (false, 0)) := by
  refine ⟨?_, ?_, ?_⟩
  · intro i qp opts sa ca hOpts hlen hvalid
    exact gradeOne_multi i qp opts sa ca hOpts hlen hvalid
  · intro i qp opts sa ca hOpts hlen hsne hmem
    exact gradeOne_single i qp opts sa ca hOpts hlen hsne hmem
  · intro i qp sa ca hsne
    exact gradeOne_open i qp sa ca hsne

/-- Witness for the amended claim C1 at a concrete input: the multi-letter
submission "ба" against the key "АБ" with two stored options is graded by set
equality and earns the full points. -/
theorem claim_C1_witness :
    gradeOne 0 3 [strL "X", strL "Y"] (strL "ба") (strL "АБ") = .ok (true, 3) := by
  have h := claim_C1_amended.1 0 3 [strL "X", strL "Y"] (strL "ба") (strL "АБ")
    (by decide) (by decide) (by decide)
  rw [h]
  decide

/-! ### Claim C2: binary scoring for multi-letter questions -/

/-- Claim C2: for a choice question whose key names at least two distinct
letters, a non-empty valid student answer earns 0 when its letter set is a
proper subset or a proper superset of the key's letter set, and exactly the
full point value when the sets are equal; the earned value is never a
fraction of the point value. -/
theorem claim_C2_binary_scoring (i : Nat) (qp : ℚ) (opts : List Str) (sa ca : Str)
    (hOpts : opts ≠ [])
    (hsne : pyStrip sa ≠ [])
    (hvalid : ∀ ch ∈ pyUpper (pyStrip sa), ch ∈ ukrainianLetters)
    (hmulti : 2 ≤ (pyUpper (pyStrip ca)).toFinset.card) :
    ((pyUpper (pyStrip sa)).toFinset ⊂ (pyUpper (pyStrip ca)).toFinset →
      gradeOne i qp opts sa ca = .ok (false, 0)) ∧
    ((pyUpper (pyStrip ca)).toFinset ⊂ (pyUpper (pyStrip sa)).toFinset →
      gradeOne i qp opts sa ca = .ok (false, 0)) ∧
    ((pyUpper (pyStrip sa)).toFinset = (pyUpper (pyStrip ca)).toFinset →
      gradeOne i qp opts sa ca = .ok (true, qp)) ∧
    (gradeOne i qp opts sa ca = .ok (true, qp) ∨
      gradeOne i qp opts sa ca = .ok (false, 0)) := by
  by_cases hlen : 1 < (pyUpper (pyStrip sa)).length
  · have h := gradeOne_multi i qp opts sa ca hOpts hlen hvalid
    refine ⟨?_, ?_, ?_, ?_⟩
    · intro hsub
      rw [h, if_neg hsub.ne]
    · intro hsup
      rw [h, if_neg hsup.ne']
    · intro heq
      rw [h, if_pos heq]
    · rw [h]
      by_cases heq : (pyUpper (pyStrip sa)).toFinset = (pyUpper (pyStrip ca)).toFinset
      · left; rw [if_pos heq]
      · right; rw [if_neg heq]
  · have hne : pyUpper (pyStrip sa) ≠ [] := by
      intro h0
      apply hsne
      have := congrArg List.length h0
      simp only [pyUpper, List.length_map] at this
      exact List.length_eq_zero.mp this
    have hlen1 : (pyUpper (pyStrip sa)).length = 1 := by
      have := List.length_pos.mpr hne
      omega
    obtain ⟨ch, hch⟩ := List.length_eq_one.mp hlen1
    have hchmem : ch ∈ ukrainianLetters := by
      apply hvalid
      rw [hch]
      exact List.mem_singleton_self ch
    have hmem : pyUpper (pyStrip sa) ∈ ukrainianLetters.map (fun c => [c]) := by
      rw [hch]
      exact List.mem_map.mpr ⟨ch, hchmem, rfl⟩
    have h := gradeOne_single i qp opts sa ca hOpts hlen hsne hmem
    have hcard : (pyUpper (pyStrip sa)).toFinset.card = 1 := by
      rw [hch]
      rfl
    refine ⟨?_, ?_, ?_, ?_⟩
    · intro hsub
      rw [h, if_neg ?_]
      intro heq
      exact hsub.ne (by rw [heq])
    · intro hsup
      exfalso
      have := Finset.card_lt_card hsup
      omega
    · intro heq
      exfalso
      rw [← heq] at hmulti
      omega
    · rw [h]
      by_cases heq : pyUpper (pyStrip sa) = pyUpper (pyStrip ca)
      · left; rw [if_pos heq]
      · right; rw [if_neg heq]

/-- Witness for claim C2 at a concrete input: submitting the proper subset
"АБ" of the three-letter key "АБВ" earns 0. -/
theorem claim_C2_witness :
    gradeOne 0 4 [strL "1", strL "2", strL "3"] (strL "АБ") (strL "АБВ") =
      .ok (false, 0) :=
  (claim_C2_binary_scoring 0 4 [strL "1", strL "2", strL "3"] (strL "АБ") (strL "АБВ")
    (by decide) (by decide) (by decide) (by decide)).1 (by decide)

/-! ### Claim C3: weight-proportional point allocation -/

/-- Claim C3: the grader re-derives each question's point value as
weight / total-weight * 12 (the maxPoints of every graded item are exactly
these values), the point values of any list of positive weights sum to 12
exactly, and for weights 1, 1, 2 the point vector is 3, 3, 6. -/
theorem claim_C3_point_allocation :
    (∀ (tw : ℚ) (opts : List (List Str)) (i : Nat) (ts : List (Str × Str × ℚ))
       (items : List GradeItem), gradeAll tw opts i ts = .ok items →
       items.map (·.maxPoints) = ts.map (fun t => questionPoints t.2.2 tw)) ∧
    (∀ ws : List ℚ, (∀ w ∈ ws, 0 < w) → ws ≠ [] →
       (ws.map (fun w => questionPoints w ws.sum)).sum = 12) ∧
    [(1 : ℚ), 1, 2].map (fun w => questionPoints w [(1 : ℚ), 1, 2].sum) = [3, 3, 6] := by
  refine ⟨fun tw opts i ts items h => gradeAll_ok_maxPoints h, ?_, ?_⟩
  · intro ws hpos hne
    have hS : 0 < ws.sum := List.sum_pos ws hpos hne
    have hmul : ∀ (l : List ℚ) (b : ℚ), (l.map (fun w => w * b)).sum = l.sum * b := by
      intro l b
      induction l with
      | nil => simp
      | cons x t ih => simp [ih, add_mul]
    have hfun : ws.map (fun w => questionPoints w ws.sum) =
        ws.map (fun w => w * (12 / ws.sum)) := by
      apply List.map_congr_left
      intro w _
      unfold questionPoints
      ring
    rw [hfun, hmul]
    field_simp
  · norm_num [questionPoints]

/-- Witness for claim C3 at a concrete input: the weights 1, 1, 2 sum their
point values to exactly 12. -/
theorem claim_C3_witness :
    ([(1 : ℚ), 1, 2].map (fun w => questionPoints w [(1 : ℚ), 1, 2].sum)).sum = 12 :=
  claim_C3_point_allocation.2.1 [(1 : ℚ), 1, 2] (by norm_num) (by simp)

theorem getD_of_lt {α : Type} (l : List α) (d : α) {n : Nat} (h : n < l.length) :
    l.getD n d = l.get ⟨n, h⟩ := by
  rw [List.getD_eq_getElem l d h, List.get_eq_getElem]

/-! ### Claim C4: shuffle-invariant recomputation of correct letters -/

/-- Claim C4: for any permutation of a choice question's options, each
recomputed correct letter names a position of the shuffled list that holds the
very text originally marked correct, found by text equality; when the option
texts are distinct that position is the unique one holding the text. -/
theorem claim_C4_shuffle_recompute (options shuffledOptions : List Str)
    (correctTexts : List Str)
    (hPerm : shuffledOptions.Perm options)
    (hSub : ∀ t ∈ correctTexts, t ∈ options)
    (hLen : options.length ≤ ukrainianLetters.length) :
    ∀ k, k < correctTexts.length →
      ∃ j, j < shuffledOptions.length ∧
        (newCorrectLetters shuffledOptions correctTexts).getD k [] =
          [ukrainianLetters.getD j 'А'] ∧
        shuffledOptions.getD j [] = correctTexts.getD k [] ∧
        (options.Nodup → ∀ j2, j2 < shuffledOptions.length →
          shuffledOptions.getD j2 [] = correctTexts.getD k [] → j2 = j) := by
  intro k hk
  have htmemC : correctTexts.getD k [] ∈ correctTexts := by
    rw [getD_of_lt _ _ hk]
    exact List.get_mem _ k hk
  have htmem : correctTexts.getD k [] ∈ shuffledOptions :=
    hPerm.mem_iff.mpr (hSub _ htmemC)
  have hjlt : idxOfL shuffledOptions (correctTexts.getD k []) < shuffledOptions.length :=
    idxOfL_lt_length htmem
  refine ⟨idxOfL shuffledOptions (correctTexts.getD k []), hjlt, ?_,
    getD_idxOfL htmem [], ?_⟩
  · rw [newCorrectLetters,
      getD_map (fun t => letterFor (idxOfL shuffledOptions t)) hk [] []]
    have hidx : idxOfL shuffledOptions (correctTexts.getD k []) <
        ukrainianLetters.length := by
      have h2 : shuffledOptions.length = options.length := hPerm.length_eq
      omega
    rw [letterFor, dif_pos hidx]
    rw [getD_of_lt _ 'А' hidx]
  · intro hNodup j2 hj2 hval
    have hsn : shuffledOptions.Nodup := (hPerm.nodup_iff).mpr hNodup
    have h1 : shuffledOptions.get ⟨j2, hj2⟩ = shuffledOptions.get ⟨_, hjlt⟩ := by
      rw [← getD_of_lt _ ([] : Str) hj2, ← getD_of_lt _ ([] : Str) hjlt,
        hval, getD_idxOfL htmem []]
    have h2 := (List.Nodup.get_inj_iff hsn).mp h1
    exact congrArg Fin.val h2

/-- Witness for claim C4 at the concrete input of the spec's Scenario B:
options X, Y, Z, W reordered to Z, X, W, Y with X and Z marked correct, checked
for the first correct text (X), together with the recombined stored answer. -/
theorem claim_C4_witness :
    combinedCorrectAnswer [strL "Z", strL "X", strL "W", strL "Y"]
        [strL "X", strL "Z"] = strL "АБ" ∧
    (∃ j, j < ([strL "Z", strL "X", strL "W", strL "Y"] : List Str).length ∧
      (newCorrectLetters [strL "Z", strL "X", strL "W", strL "Y"]
          [strL "X", strL "Z"]).getD 0 [] = [ukrainianLetters.getD j 'А'] ∧
      ([strL "Z", strL "X", strL "W", strL "Y"] : List Str).getD j [] =
        ([strL "X", strL "Z"] : List Str).getD 0 [] ∧
      (([strL "X", strL "Y", strL "Z", strL "W"] : List Str).Nodup →
        ∀ j2, j2 < ([strL "Z", strL "X", strL "W", strL "Y"] : List Str).length →
          ([strL "Z", strL "X", strL "W", strL "Y"] : List Str).getD j2 [] =
            ([strL "X", strL "Z"] : List Str).getD 0 [] → j2 = j)) :=
  ⟨by decide,
    claim_C4_shuffle_recompute [strL "X", strL "Y", strL "Z", strL "W"]
      [strL "Z", strL "X", strL "W", strL "Y"] [strL "X", strL "Z"]
      (by decide) (by decide) (by decide) 0 (by decide)⟩

/-! ### Claim C5: answer-key round trip -/

/-- Claim C5 is false on the code as stated: an open question whose stored
answer itself contains a comma (here the text 1,5) is split apart by the
decoder, so decoding the encoded key does not reproduce the variant's answer
sequence. -/
theorem claim_C5_counterexample :
    decodeAnswersField (encodeAnswersField [strL "1,5"]) = [strL "1", strL "5"] ∧
    decodeAnswersField (encodeAnswersField [strL "1,5"]) ≠ [strL "1,5"] := by
  constructor
  · decide
  · decide

theorem isSpaceCh_eq_false {c : Char} (h : (48 ≤ c.toNat ∧ c.toNat ≤ 57) ∨ c = '.') :
    isSpaceCh c = false := by
  rcases h with ⟨h1, h2⟩ | rfl
  · simp only [isSpaceCh, Bool.or_eq_false_iff, decide_eq_false_iff_not]
    and_intros <;> (intro hc; subst hc; revert h1; decide)
  · rfl

/-- Amended claim C5: decoding the encoded answer key reproduces the variant's
ordered answers and weights provided no stored answer contains a comma and
each is already stripped (both hold for every generated choice answer, but an
open answer may contain a comma, see the counterexample); the weights must be
nonnegative decimal values, as Python floats printed by str always are. -/
theorem parseWeightsField_encode (weights : List ℚ)
    (hWne : weights ≠ [])
    (hW : ∀ w ∈ weights, 0 ≤ w ∧ ∃ k, k < 400 ∧ (w * (10 : ℚ) ^ k).den = 1) :
    parseWeightsField (encodeWeightsField weights) = .ok weights := by
  have hchars : ∀ w ∈ weights, ∀ c ∈ ratRepr w,
      (48 ≤ c.toNat ∧ c.toNat ≤ 57) ∨ c = '.' := by
    intro w hw
    exact (parseFloat_ratRepr (hW w hw).1 (hW w hw).2).2
  have hcomma : ∀ p ∈ weights.map ratRepr, ',' ∉ p := by
    intro p hp
    obtain ⟨w, hw, rfl⟩ := List.mem_map.mp hp
    intro hc
    rcases hchars w hw ',' hc with ⟨h1, h2⟩ | h3
    · revert h1 h2; decide
    · exact absurd h3 (by decide)
  have hmapne : weights.map ratRepr ≠ [] := by
    intro h0
    exact hWne (List.map_eq_nil_iff.mp h0)
  rw [parseWeightsField, encodeWeightsField, splitOnChar_joinComma hmapne hcomma]
  have hper : ∀ w ∈ weights,
      (match parseFloat (pyStrip (ratRepr w)) with
        | some v => Except.ok v
        | none => Except.error (GradeError.badWeight (ratRepr w))) =
        (Except.ok w : Except GradeError ℚ) := by
    intro w hw
    have hstrip : pyStrip (ratRepr w) = ratRepr w :=
      pyStrip_eq_self (fun c hc => isSpaceCh_eq_false (hchars w hw c hc))
    rw [hstrip, (parseFloat_ratRepr (hW w hw).1 (hW w hw).2).1]
  have := mapM_map_ok ratRepr
    (fun p => match parseFloat (pyStrip p) with
      | some v => Except.ok v
      | none => Except.error (GradeError.badWeight p)) id weights hper
  rw [this, List.map_id]

theorem claim_C5_roundtrip (answers : List Str) (weights : List ℚ)
    (hAne : answers ≠ [])
    (hA : ∀ a ∈ answers, ',' ∉ a ∧ pyStrip a = a)
    (hWne : weights ≠ [])
    (hW : ∀ w ∈ weights, 0 ≤ w ∧ ∃ k, k < 400 ∧ (w * (10 : ℚ) ^ k).den = 1) :
    decodeAnswersField (encodeAnswersField answers) = answers ∧
    parseWeightsField (encodeWeightsField weights) = .ok weights := by
  constructor
  · rw [decodeAnswersField, encodeAnswersField,
        splitOnChar_joinComma hAne (fun p hp => (hA p hp).1)]
    rw [List.map_congr_left (fun a ha => (hA a ha).2)]
    simp
  · exact parseWeightsField_encode weights hWne hW

/-- Witness for the amended claim C5 at a concrete input: one variant's comma
free answers and decimal weights decode back exactly. -/
theorem claim_C5_witness :
    decodeAnswersField (encodeAnswersField [strL "А", strL "БВ", strL "hello"]) =
      [strL "А", strL "БВ", strL "hello"] ∧
    parseWeightsField (encodeWeightsField [(1 : ℚ), 3 / 2, 2]) =
      .ok [(1 : ℚ), 3 / 2, 2] :=
  claim_C5_roundtrip [strL "А", strL "БВ", strL "hello"] [(1 : ℚ), 3 / 2, 2]
    (by decide) (by decide) (by decide)
    (by
      intro w hw
      simp only [List.mem_cons, List.not_mem_nil, or_false] at hw
      rcases hw with rfl | rfl | rfl
      · exact ⟨by norm_num, 0, by norm_num, by
          rw [show ((1 : ℚ) * 10 ^ 0) = 1 by norm_num]
          exact Rat.den_one⟩
      · exact ⟨by norm_num, 1, by norm_num, by
          rw [show ((3 : ℚ) / 2 * 10 ^ 1) = ((15 : ℤ) : ℚ) by norm_num]
          exact Rat.den_intCast 15⟩
      · exact ⟨by norm_num, 0, by norm_num, by
          rw [show ((2 : ℚ) * 10 ^ 0) = ((2 : ℤ) : ℚ) by norm_num]
          exact Rat.den_intCast 2⟩)

/-! ### Claim C6: answers/weights length mismatch -/

/-- Claim C6 is false on the code as stated: grading a key whose answers field
decodes to two answers but whose weights field holds a single weight raises no
error at all — the grading loop zips the lists and silently truncates to one
graded question, returning a full result. -/
theorem claim_C6_counterexample :
    (decodeAnswersField (strL "А,Б")).length = 2 ∧
    (splitOnChar ',' (strL "1.0")).length = 1 ∧
    (checkStudentAnswers 7 (strL "А,Б") (strL "1.0")
        [[strL "X", strL "Y"], [strL "X", strL "Y"]]
        [strL "А", strL "Б"]).map (fun r => (r.totalQuestions, r.detailed.length)) =
      .ok (2, 1) := by
  refine ⟨by decide, by decide, by decide⟩

theorem zip3_length {α β γ : Type} (a : List α) (b : List β) (c : List γ) :
    (zip3 a b c).length = min a.length (min b.length c.length) := by
  simp [zip3]

/-- Amended claim C6: the answers and weights lists decoded from an answer-key
entry are never compared for equal length; grading zips them and silently
truncates to the shorter list.  The only count check is between the student's
answers and the decoded answers field, and a malformed weight piece is a parse
error; a weights field shorter or longer than the answers field is tolerated. -/
theorem claim_C6_amended (vn : Nat) (af wf : Str) (opq : List (List Str))
    (sa : List Str) (ws : List ℚ) (hw : parseWeightsField wf = .ok ws) :
    (sa.length ≠ (decodeAnswersField af).length →
      checkStudentAnswers vn af wf opq sa =
        .error (.countMismatch sa.length (decodeAnswersField af).length)) ∧
    (∀ r, checkStudentAnswers vn af wf opq sa = .ok r →
      r.totalQuestions = (decodeAnswersField af).length ∧
      r.detailed.length = min (decodeAnswersField af).length ws.length) := by
  constructor
  · intro hne
    simp only [checkStudentAnswers, hw, Bind.bind, Except.bind]
    rw [if_pos hne]
  · intro r hr
    simp only [checkStudentAnswers, hw, Bind.bind, Except.bind] at hr
    by_cases hne : sa.length ≠ (decodeAnswersField af).length
    · rw [if_pos hne] at hr
      exact absurd hr (by simp)
    · rw [if_neg hne] at hr
      push_neg at hne
      cases hg : gradeAll ws.sum opq 0 (zip3 sa (decodeAnswersField af) ws) with
      | error e =>
        rw [hg] at hr
        exact absurd hr (by simp)
      | ok items =>
        rw [hg] at hr
        simp only [Pure.pure, Except.pure, Except.ok.injEq] at hr
        have hlen := gradeAll_ok_length hg
        rw [zip3_length] at hlen
        constructor
        · rw [← hr]
        · rw [← hr]
          simp only [hlen, hne]
          omega

/-- Witness for the amended claim C6 at a concrete input: the only hard count
check in the grader fires between the student answers and the decoded answers
field — one student answer against a two-answer key is a count-mismatch
error. -/
theorem claim_C6_witness :
    checkStudentAnswers 7 (strL "А,Б") (encodeWeightsField [1]) [] [strL "А"] =
      .error (.countMismatch 1 2) := by
  have hw : parseWeightsField (encodeWeightsField [1]) = .ok [1] := by
    apply parseWeightsField_encode [1] (by decide)
    intro w hwm
    simp only [List.mem_singleton] at hwm
    subst hwm
    refine ⟨by norm_num, 0, by norm_num, ?_⟩
    rw [show ((1 : ℚ) * 10 ^ 0) = 1 by norm_num]
    exact Rat.den_one
  have h := (claim_C6_amended 7 (strL "А,Б") (encodeWeightsField [1]) [] [strL "А"] [1]
    hw).1 (by decide)
  exact h.trans (by decide)

/-! ### Claim C7: generation error handling -/

/-- Concrete bank row whose correct answer holds one mappable letter (А) and
one unmappable letter (Я, beyond the two options). -/
def rowSkippedLetter : BankRow :=
  { number := strL "1", question := strL "Q", weight := 1, isTestQuestion := true,
    optionCells := [strL "X", strL "Y"], correctAnswer := strL "АЯ" }

/-- Concrete bank row that is a test question with only blank option cells. -/
def rowNoOptions : BankRow :=
  { number := strL "1", question := strL "Low", weight := 1, isTestQuestion := true,
    optionCells := [strL " ", strL ""], correctAnswer := strL "А" }

/-- Built question produced from rowSkippedLetter. -/
def builtSkippedLetter : QuestionData :=
  { questionText := strL "Q", weight := 1, isTestQuestion := true,
    options := [strL "X", strL "Y"], correctAnswer := strL "А" }

/-- Claim C7 is false on the code in its second half: a correct-answer letter
that cannot be mapped to a built option (here Я against a two-option list)
does not abort generation — the letter is silently skipped and the question is
built from the letters that do map. -/
theorem claim_C7_counterexample :
    buildQuestion id rowSkippedLetter = .ok builtSkippedLetter := by
  decide

/-- Amended claim C7: a choice question resolving to fewer than 2 options
aborts the generation call naming the question, a correct answer in which NO
letter maps to a built option aborts likewise (individually unmappable letters
are skipped, see the counterexample), and any failing question makes the whole
generation call return an error — no partial batch of variants is returned. -/
theorem claim_C7_generation_aborts :
    (∀ (shuffle : List Str → List Str) (row : BankRow),
      row.isTestQuestion = true → (buildOptions row.optionCells).length < 2 →
      buildQuestion shuffle row = .error (.tooFewOptions (row.question.take 50))) ∧
    (∀ (shuffle : List Str → List Str) (row : BankRow),
      row.isTestQuestion = true → ¬ (buildOptions row.optionCells).length < 2 →
      collectCorrect (pyUpper (pyStrip row.correctAnswer))
        (buildOptions row.optionCells) = [] →
      buildQuestion shuffle row =
        .error (.noValidCorrect row.correctAnswer (row.question.take 50))) ∧
    (∀ (shuffle : List Str → List Str) (resolveOrder : Nat → List BankRow) (n : Nat),
      (∃ v, v < n ∧ ∃ row ∈ resolveOrder v, ∃ e, buildQuestion shuffle row = .error e) →
      ∃ e, generateTestVariants shuffle resolveOrder n = .error e) := by
  refine ⟨?_, ?_, ?_⟩
  · intro shuffle row hTest hFew
    rw [buildQuestion, if_pos hTest, buildTestQuestion, if_pos hFew]
  · intro shuffle row hTest hFew hNone
    rw [buildQuestion, if_pos hTest, buildTestQuestion, if_neg hFew]
    simp only [hNone]
    rfl
  · intro shuffle resolveOrder n hbad
    obtain ⟨v, hv, row, hrow, e, he⟩ := hbad
    apply mapM_error_of_exists
    refine ⟨v, List.mem_range.mpr hv, ?_⟩
    obtain ⟨e', he'⟩ :=
      mapM_error_of_exists (buildQuestion shuffle) (resolveOrder v) ⟨row, hrow, e, he⟩
    refine ⟨e', ?_⟩
    simp only [he', Bind.bind, Except.bind]

/-- Witness for the amended claim C7 at a concrete input: a test question
whose two option cells are blank resolves to zero options and errors naming
the question, and a one-variant generation call over it returns an error. -/
theorem claim_C7_witness :
    buildQuestion id rowNoOptions = .error (.tooFewOptions (strL "Low")) ∧
    (∃ e, generateTestVariants id (fun _ => [rowNoOptions]) 1 = .error e) := by
  have h1 := claim_C7_generation_aborts.1 id rowNoOptions (by decide) (by decide)
  refine ⟨h1.trans (by decide), ?_⟩
  exact claim_C7_generation_aborts.2.2 id _ 1
    ⟨0, by decide, _, List.mem_singleton_self _, _, h1⟩

/-! ### Claim C8: the optional-question resolver -/

/-- Concrete one-row-per-number bank whose string question numbers are 1, 2
and 10; lexicographic sorting returns them as 1, 10, 2. -/
def bankLexOrder : List BankRow :=
  [{ number := strL "1", question := strL "a", weight := 1, isTestQuestion := false,
     optionCells := [], correctAnswer := strL "x" },
   { number := strL "2", question := strL "b", weight := 1, isTestQuestion := false,
     optionCells := [], correctAnswer := strL "y" },
   { number := strL "10", question := strL "c", weight := 1, isTestQuestion := false,
     optionCells := [], correctAnswer := strL "z" }]

/-- Concrete bank in which the single question number 1 appears under its two
string spellings 1 (text cell) and 1.0 (numeric cell), as astype(str)
produces them. -/
def bankTwoSpellings : List BankRow :=
  [{ number := strL "1", question := strL "a", weight := 1, isTestQuestion := false,
     optionCells := [], correctAnswer := strL "x" },
   { number := strL "1.0", question := strL "b", weight := 1, isTestQuestion := false,
     optionCells := [], correctAnswer := strL "y" }]

/-- Claim C8 is false on the code: question numbers live as strings from
read_test_excel's astype(str) on, so groupby and sort_values order them
lexicographically — the bank with numbers 1, 2, 10 comes back ordered
1, 10, 2, which is not ascending by question number; and the two string
spellings 1 and 1.0 of the single number 1 (both denote the value float(s)=1)
form two groups, so the output length exceeds the number of distinct
question numbers. -/
theorem claim_C8_counterexample :
    (processOptionalQuestions (fun _ g => g.headD default) bankLexOrder).map
        (fun r => digitsVal r.number) = [1, 10, 2] ∧
    ¬ ((processOptionalQuestions (fun _ g => g.headD default) bankLexOrder).map
        (fun r => digitsVal r.number)).Sorted (· ≤ ·) ∧
    parseFloat (strL "1") = some 1 ∧
    parseFloat (strL "1.0") = some 1 ∧
    (processOptionalQuestions (fun _ g => g.headD default) bankTwoSpellings).length
      = 2 := by
  refine ⟨by decide, by decide, ?_, ?_, by decide⟩
  · have h : parseFloat (strL "1") = some ((1 : ℕ) : ℚ) := rfl
    rw [h, Nat.cast_one]
  · have h : parseFloat (strL "1.0") =
        some (((1 : ℕ) : ℚ) + ((0 : ℕ) : ℚ) / (10 : ℚ) ^ (1 : ℕ)) := rfl
    rw [h]
    norm_num

/-- Amended claim C8: on every call the resolver returns exactly one record
per distinct question-number STRING — its length is the number of distinct
number strings, and its number sequence is exactly those strings sorted
lexicographically by code point (pandas groups and sorts the astype(str)
column), which coincides with ascending numeric order only for equal-length
numerals. -/
theorem claim_C8_resolver (sel : Str → List BankRow → BankRow) (df : List BankRow)
    (hSel : ∀ n g, g ≠ [] → sel n g ∈ g) :
    (processOptionalQuestions sel df).length = (df.map (·.number)).dedup.length ∧
    ((processOptionalQuestions sel df).map (·.number)).Sorted lexLeP ∧
    (processOptionalQuestions sel df).map (·.number) = groupKeys df := by
  have hkeys_sorted : (groupKeys df).Sorted lexLeP :=
    List.sorted_insertionSort _ _
  have hkeys_nodup : (groupKeys df).Nodup :=
    ((List.perm_insertionSort _ _).nodup_iff).mpr (List.nodup_dedup _)
  have hkeys_len : (groupKeys df).length = (df.map (·.number)).dedup.length :=
    (List.perm_insertionSort _ _).length_eq
  have hgrp : ∀ n ∈ groupKeys df, df.filter (fun r => r.number = n) ≠ [] := by
    intro n hn
    have hn2 : n ∈ df.map (·.number) :=
      (List.mem_dedup).mp ((List.perm_insertionSort _ _).mem_iff.mp hn)
    obtain ⟨r, hr, hrn⟩ := List.mem_map.mp hn2
    intro h0
    have : r ∈ df.filter (fun x => x.number = n) :=
      List.mem_filter.mpr ⟨hr, by simp [hrn]⟩
    rw [h0] at this
    exact absurd this (List.not_mem_nil r)
  have hselnum : ∀ n ∈ groupKeys df,
      (selectFromGroup sel n (df.filter (fun r => r.number = n))).number = n := by
    intro n hn
    have hne := hgrp n hn
    have hmem : selectFromGroup sel n (df.filter (fun r => r.number = n)) ∈
        df.filter (fun r => r.number = n) := by
      rw [selectFromGroup]
      by_cases h1 : 1 < (df.filter (fun r => r.number = n)).length
      · rw [if_pos h1]
        exact hSel n _ hne
      · rw [if_neg h1]
        exact headD_mem hne default
    have := (List.mem_filter.mp hmem).2
    exact of_decide_eq_true this
  have hselmap :
      ((groupKeys df).map
        (fun n => selectFromGroup sel n (df.filter (fun r => r.number = n)))).map
          (·.number) = groupKeys df := by
    rw [List.map_map]
    calc ((groupKeys df).map
        (fun n => (selectFromGroup sel n (df.filter (fun r => r.number = n))).number))
        = (groupKeys df).map id := List.map_congr_left (fun n hn => hselnum n hn)
      _ = groupKeys df := List.map_id _
  have hout_perm : (processOptionalQuestions sel df).Perm
      ((groupKeys df).map
        (fun n => selectFromGroup sel n (df.filter (fun r => r.number = n)))) := by
    rw [processOptionalQuestions]
    exact List.perm_insertionSort _ _
  have hout_sorted : (processOptionalQuestions sel df).Sorted rowNumLe := by
    rw [processOptionalQuestions]
    exact List.sorted_insertionSort _ _
  have hmap_sorted : ((processOptionalQuestions sel df).map (·.number)).Sorted lexLeP := by
    rw [List.Sorted, List.pairwise_map]
    exact hout_sorted
  have hmap_perm : ((processOptionalQuestions sel df).map (·.number)).Perm
      (groupKeys df) := by
    have h1 := hout_perm.map (·.number)
    rw [hselmap] at h1
    exact h1
  have heq : (processOptionalQuestions sel df).map (·.number) = groupKeys df :=
    List.eq_of_perm_of_sorted hmap_perm hmap_sorted hkeys_sorted
  refine ⟨?_, hmap_sorted, heq⟩
  have := congrArg List.length heq
  rw [List.length_map] at this
  rw [this, hkeys_len]

/-- Concrete three-row bank with the duplicate number 2, for the resolver
witness. -/
def bankDupNumbers : List BankRow :=
  [{ number := strL "2", question := strL "a", weight := 1, isTestQuestion := false,
     optionCells := [], correctAnswer := strL "x" },
   { number := strL "1", question := strL "b", weight := 1, isTestQuestion := false,
     optionCells := [], correctAnswer := strL "y" },
   { number := strL "2", question := strL "c", weight := 1, isTestQuestion := false,
     optionCells := [], correctAnswer := strL "z" }]

/-- Witness for the amended claim C8 at a concrete input: a bank with the
number strings 2, 1, 2 resolves to one record per distinct string in the
lexicographic order 1, 2, for the head-picking selection oracle. -/
theorem claim_C8_witness :
    (processOptionalQuestions (fun _ g => g.headD default) bankDupNumbers).length =
      (bankDupNumbers.map (·.number)).dedup.length ∧
    ((processOptionalQuestions (fun _ g => g.headD default) bankDupNumbers).map
      (·.number)).Sorted lexLeP ∧
    (processOptionalQuestions (fun _ g => g.headD default) bankDupNumbers).map
      (·.number) = groupKeys bankDupNumbers :=
  claim_C8_resolver (fun _ g => g.headD default) bankDupNumbers
    (fun _ _ hg => headD_mem hg default)

/-! ### Claim C9: invalid letters in a choice submission -/

/-- Claim C9 is false on the code as stated: the raw submission " А" is
non-empty and contains the space character, which is outside the 27-letter
alphabet, yet grading raises nothing — the answer is stripped first and graded
correct. -/
theorem claim_C9_counterexample :
    strL " А" ≠ [] ∧ (' ' ∈ strL " А") ∧ ' ' ∉ ukrainianLetters ∧
    gradeOne 0 3 [strL "X", strL "Y"] (strL " А") (strL "А") = .ok (true, 3) := by
  refine ⟨by decide, by decide, by decide, by decide⟩

/-- Amended claim C9: the alphabet check applies to the normalized (stripped,
upper-cased) student answer, not the raw one; when the normalized non-empty
answer of a choice question contains a character outside the 27-letter
alphabet, grading raises an error naming the question, and the whole grading
call over the submission returns an error and produces no result. -/
theorem claim_C9_invalid_letters :
    (∀ (i : Nat) (qp : ℚ) (opts : List Str) (sa ca : Str), opts ≠ [] →
      1 < (pyUpper (pyStrip sa)).length →
      (∃ ch ∈ pyUpper (pyStrip sa), ch ∉ ukrainianLetters) →
      gradeOne i qp opts sa ca = .error (.invalidLetters (i + 1)
        ((pyUpper (pyStrip sa)).filter (fun ch => ¬ ch ∈ ukrainianLetters)))) ∧
    (∀ (i : Nat) (qp : ℚ) (opts : List Str) (sa ca : Str), opts ≠ [] →
      ¬ 1 < (pyUpper (pyStrip sa)).length → pyStrip sa ≠ [] →
      pyUpper (pyStrip sa) ∉ ukrainianLetters.map (fun ch => [ch]) →
      gradeOne i qp opts sa ca = .error (.invalidLetter (i + 1) sa)) ∧
    (∀ (tw : ℚ) (opts : List (List Str)) (i : Nat) (ts : List (Str × Str × ℚ)),
      (∃ j, j < ts.length ∧ ∃ e,
        gradeOne (i + j) (questionPoints (ts.getD j dfltTriple).2.2 tw)
          (opts.getD (i + j) []) (ts.getD j dfltTriple).1 (ts.getD j dfltTriple).2.1 =
          .error e) →
      ∃ e, gradeAll tw opts i ts = .error e) ∧
    (∀ (vn : Nat) (af wf : Str) (opq : List (List Str)) (sa : List Str) (ws : List ℚ),
      parseWeightsField wf = .ok ws →
      sa.length = (decodeAnswersField af).length →
      (∃ e, gradeAll ws.sum opq 0 (zip3 sa (decodeAnswersField af) ws) = .error e) →
      ∃ e, checkStudentAnswers vn af wf opq sa = .error e) := by
  refine ⟨?_, ?_, ?_, ?_⟩
  · intro i qp opts sa ca hOpts hlen hbad
    exact gradeOne_multi_invalid i qp opts sa ca hOpts hlen hbad
  · intro i qp opts sa ca hOpts hlen hsne hmem
    exact gradeOne_single_invalid i qp opts sa ca hOpts hlen hsne hmem
  · intro tw opts i ts h
    exact gradeAll_error_of_exists h
  · intro vn af wf opq sa ws hw hlen hge
    obtain ⟨e, he⟩ := hge
    refine ⟨e, ?_⟩
    simp only [checkStudentAnswers, hw, Bind.bind, Except.bind]
    rw [if_neg (by omega), he]

/-- Witness for the amended claim C9 at a concrete input: the submission АW
contains the Latin letter W, which is outside the alphabet, and grading errors
naming question 1 with exactly that letter. -/
theorem claim_C9_witness :
    gradeOne 0 3 [strL "X", strL "Y"] (strL "АW") (strL "АБ") =
      .error (.invalidLetters 1 [ 'W' ]) := by
  have h := claim_C9_invalid_letters.1 0 3 [strL "X", strL "Y"] (strL "АW") (strL "АБ")
    (by decide) (by decide) (by decide)
  exact h.trans (by decide)

/-! ### Claim C10: recomputed letters are stored in ascending alphabet order -/

/-- Claim C10: the stored multi-letter correct answer of a generated choice
question (the sorted, joined recomputed letters) lists only letters of the
option alphabet, in ascending alphabetical order, whatever order the correct
texts were listed in. -/
theorem claim_C10_sorted_letters (shuffledOptions correctTexts : List Str)
    (hmem : ∀ t ∈ correctTexts, t ∈ shuffledOptions)
    (hlen : shuffledOptions.length ≤ ukrainianLetters.length) :
    (∀ c ∈ combinedCorrectAnswer shuffledOptions correctTexts, c ∈ ukrainianLetters) ∧
    (combinedCorrectAnswer shuffledOptions correctTexts).Pairwise
      (fun a b => idxOfL ukrainianLetters a ≤ idxOfL ukrainianLetters b) := by
  have hsingle : ∀ x ∈ List.insertionSort lexLeP
      (newCorrectLetters shuffledOptions correctTexts),
      ∃ c ∈ ukrainianLetters, x = [c] := by
    intro x hx
    have hx2 : x ∈ newCorrectLetters shuffledOptions correctTexts :=
      (List.perm_insertionSort _ _).mem_iff.mp hx
    obtain ⟨t, ht, rfl⟩ := List.mem_map.mp hx2
    have hidx : idxOfL shuffledOptions t < ukrainianLetters.length :=
      lt_of_lt_of_le (idxOfL_lt_length (hmem t ht)) hlen
    rw [letterFor, dif_pos hidx]
    exact ⟨_, List.get_mem _ _ _, rfl⟩
  have hpair : (List.insertionSort lexLeP
      (newCorrectLetters shuffledOptions correctTexts)).Pairwise lexLeP :=
    List.sorted_insertionSort lexLeP _
  have hres := flatten_singletons_sorted hsingle hpair
  rw [combinedCorrectAnswer]
  exact ⟨hres.2, hres.1⟩

/-- Witness for claim C10 at a concrete input: the scenario-B options with the
correct texts listed as Z then X still store letters in alphabet order. -/
theorem claim_C10_witness :
    (∀ c ∈ combinedCorrectAnswer [strL "Z", strL "X", strL "W", strL "Y"]
        [strL "Z", strL "X"], c ∈ ukrainianLetters) ∧
    (combinedCorrectAnswer [strL "Z", strL "X", strL "W", strL "Y"]
        [strL "Z", strL "X"]).Pairwise
      (fun a b => idxOfL ukrainianLetters a ≤ idxOfL ukrainianLetters b) :=
  claim_C10_sorted_letters [strL "Z", strL "X", strL "W", strL "Y"]
    [strL "Z", strL "X"] (by decide) (by decide)

end TeacherTest
